import Mathlib

/-!
Verification of `scripts/generate-marble-textures.py`.

The repository's own logic (octave loop, min/max rescale, vein random walk,
stroke guard) is embedded exactly over exact rationals.  External library
primitives that are not code of this repository are modelled as explicit
function parameters:

* `npRand` stands for numpy's global Mersenne-Twister stream: the value of
  draw number `k` after `np.random.seed(s)` is `npRand s k`.  The global
  generator state is modelled as the pair `(seed, draws made since seeding)`.
* a `ZoomFn` parameter stands for `scipy.ndimage.zoom`; the synthesizer passes
  it the input grid, its shape, the integer zoom factor, the spline order `3`
  and the boundary mode `wrap`, exactly as the source call does.
* `rnd` stands for Python's `random` module as a stream of unit draws
  `u_n ∈ [0,1)`; `random.uniform a b` is `a + (b-a)·u_n` (CPython's own
  definition) and `random.randint a b` is modelled by its support
  `a + ⌊(b+1-a)·u_n⌋`.
* `sinQ` stands for `np.sin`, and a `DrawFn` parameter stands for PIL's
  `ImageDraw.line` (polyline rasterization with alpha blending).

Floating-point rounding is not modelled (all claims below are rounding
independent), but the one partial float operation the script relies on is:
the final rescale divides by `max - min`, and IEEE division by zero yields a
non-finite value.  `fdiv` makes that partiality explicit with `Option`.
-/

/-- Division as the script's floats perform it: a zero denominator does not
produce a number (IEEE gives NaN or ±Inf); modelled as `none`. -/
def fdiv (a b : ℚ) : Option ℚ := if b = 0 then none else some (a / b)

/-- Truncation toward zero, the semantics of Python's `int()` on a float. -/
def pytrunc (q : ℚ) : ℤ := if 0 ≤ q then ⌊q⌋ else ⌈q⌉

/-- Cast of a float in a numpy array to `uint8`, as `.astype(np.uint8)` does:
truncate toward zero, wrap modulo 256. -/
def toUint8 (v : ℚ) : ℕ := (pytrunc v % 256).toNat

/-- Minimum of a list of rationals, `ndarray.min()` style (0 on the empty
list, which numpy rejects anyway). -/
def qmin : List ℚ → ℚ
  | [] => 0
  | a :: t => t.foldl min a

/-- Maximum of a list of rationals, `ndarray.max()` style. -/
def qmax : List ℚ → ℚ
  | [] => 0
  | a :: t => t.foldl max a

/-- A 2-D scalar grid, indexed row-then-column like a numpy array. -/
abbrev Grid := ℕ → ℕ → ℚ

/-- All entries of the `height × width` window of a grid, row-major: the
value list of the numpy array the script manipulates. -/
def gridVals (g : Grid) (height width : ℕ) : List ℚ :=
  ((List.range height).map fun i => (List.range width).map fun j => g i j).flatten

/-- State of numpy's global random generator, abstracted to the pair
(last seed, number of draws made since that seed). -/
abbrev RState := ℕ × ℕ

/-- Model of `np.random.seed n`: the global state becomes a function of `n`
alone. -/
def npSeed (n : ℕ) : RState := (n, 0)

/-- Model of `np.random.rand(r, c)`: a row-major block of `r*c` draws from
the current stream position, advancing the state. -/
def npDraw (npRand : ℕ → ℕ → ℚ) (st : RState) (r c : ℕ) : Grid × RState :=
  (fun i j => npRand st.1 (st.2 + i * c + j), (st.1, st.2 + r * c))

/-- Boundary modes of `scipy.ndimage.zoom` (the script always passes
`wrap`). -/
inductive ZoomMode
  | wrap
  | reflect
  | nearest
deriving DecidableEq

/-- Shape of `scipy.ndimage.zoom` as the script calls it: input grid, input
rows, input cols, integer zoom factor, spline order, boundary mode; returns
the upsampled grid.  External library code, kept abstract. -/
abbrev ZoomFn := Grid → ℕ → ℕ → ℕ → ℕ → ZoomMode → Grid

/-- The values of lines 15-16 of the script:
`np.linspace(0, scale, n, endpoint=False)`.  The source computes `x` and `y`
this way from `scale` and then never reads them again; nothing below uses
this definition, mirroring the source. -/
def linspace0 (scale : ℚ) (n : ℕ) : ℕ → ℚ := fun k => scale * k / n

/-- Body of one iteration of the octave loop of `create_seamless_noise`
(lines 22-35): `freq = 2**octave`, `amp = 1.0/freq`, reseed the global
generator at `octave + 42`, draw a `(int(height/freq)+2, int(width/freq)+2)`
grid (division by `2**octave` is exact in binary floats, so `int(...)` is
natural-number division), upsample it by `freq` with spline order 3 and
boundary mode `wrap`, and add it into the accumulator weighted by `amp`.
The crop `[:height, :width]` is index restriction; the grid is only ever
read at row `< height`, column `< width`. -/
def octaveStep (npRand : ℕ → ℕ → ℚ) (zoom : ZoomFn) (height width : ℕ)
    (acc : Grid × RState) (octave : ℕ) : Grid × RState :=
  let freq := 2 ^ octave
  let amp : ℚ := 1 / (2 ^ octave : ℚ)
  let st1 := npSeed (octave + 42)
  let rows := height / freq + 2
  let cols := width / freq + 2
  let d := npDraw npRand st1 rows cols
  let resized := zoom d.1 rows cols freq 3 ZoomMode.wrap
  (fun i j => acc.1 i j + resized i j * amp, d.2)

/-- The accumulated pre-normalization noise field of `create_seamless_noise`:
`noise = np.zeros((height, width))` followed by the six octave iterations,
threading the global numpy random state. -/
def rawNoiseSt (npRand : ℕ → ℕ → ℚ) (zoom : ZoomFn) (width height : ℕ)
    (st0 : RState) : Grid × RState :=
  (List.range 6).foldl (octaveStep npRand zoom height width) (fun _ _ => 0, st0)

/-- `create_seamless_noise(width, height, scale)` with the global numpy
random state made explicit: the six-octave sum followed by the rescale
`(noise - noise.min()) / (noise.max() - noise.min())` (line 38), whose
division is unguarded in the source.  `scale` is received (and `x`, `y` of
lines 15-16 are computed from it, see `linspace0`) but never used past
that point. -/
def create_seamless_noise_st (npRand : ℕ → ℕ → ℚ) (zoom : ZoomFn)
    (width height : ℕ) (scale : ℚ) (st0 : RState) :
    (ℕ → ℕ → Option ℚ) × RState :=
  let r := rawNoiseSt npRand zoom width height st0
  let m := qmin (gridVals r.1 height width)
  let M := qmax (gridVals r.1 height width)
  (fun i j => fdiv (r.1 i j - m) (M - m), r.2)

/-- `create_seamless_noise` as a function of its arguments, started from an
arbitrary fixed generator state (the result does not depend on it, see the
determinism theorem). -/
def create_seamless_noise (npRand : ℕ → ℕ → ℚ) (zoom : ZoomFn)
    (width height : ℕ) (scale : ℚ) : ℕ → ℕ → Option ℚ :=
  (create_seamless_noise_st npRand zoom width height scale (0, 0)).1

/-- The pre-normalization octave sum, as produced inside
`create_seamless_noise` (the generator state it starts from is
irrelevant). -/
def rawNoise (npRand : ℕ → ℕ → ℚ) (zoom : ZoomFn) (width height : ℕ) : Grid :=
  (rawNoiseSt npRand zoom width height (0, 0)).1

/-- The six-octave sum exactly as the specification describes it: for octave
`o`, weight `1/2^o` times the result of upsampling the `(height/2^o + 2,
width/2^o + 2)` random grid seeded from the octave index by factor `2^o`
with cubic (order 3) interpolation and `wrap` boundary handling. -/
def octaveSumSpec (npRand : ℕ → ℕ → ℚ) (zoom : ZoomFn) (width height : ℕ) : Grid :=
  fun i j =>
    ((List.range 6).map fun o =>
      (1 / (2 ^ o : ℚ)) *
        zoom (fun a b => npRand (o + 42) (a * (width / 2 ^ o + 2) + b))
          (height / 2 ^ o + 2) (width / 2 ^ o + 2) (2 ^ o) 3 ZoomMode.wrap i j).sum

/-- A float-valued RGB image buffer, as the preset generators hand to
`add_veins`: row, column, channel. -/
abbrev ImgF := ℕ → ℕ → Fin 3 → ℚ

/-- An 8-bit RGB canvas (the PIL image `add_veins` draws on, and the array
it returns). -/
abbrev Canvas := ℕ → ℕ → Fin 3 → ℕ

/-- `Image.fromarray((img_array * 255).astype(np.uint8).reshape(h, w, 3))`:
scale by 255 and cast each channel to `uint8` (the reshape is the identity
on an `(h, w, 3)` array). -/
def quantizeImg (img : ImgF) : Canvas := fun i j c => toUint8 (img i j c * 255)

/-- Shape of PIL's `ImageDraw.Draw(img, RGBA).line(points, fill=color +
(opacity,), width=thickness)`: external rasterization with alpha blending,
kept abstract: canvas, polyline points, RGB color, opacity, thickness. -/
abbrev DrawFn := Canvas → List (ℤ × ℤ) → ℕ × ℕ × ℕ → ℤ → ℤ → Canvas

/-- Python's `random` module as a stream of unit draws `u_n`. -/
def validOracle (rnd : ℕ → ℚ) : Prop := ∀ n, 0 ≤ rnd n ∧ rnd n < 1

/-- `random.uniform(a, b)` consuming draw `n`: CPython computes
`a + (b-a) * random()`. -/
def uniformM (rnd : ℕ → ℚ) (a b : ℚ) (n : ℕ) : ℚ := a + (b - a) * rnd n

/-- `random.randint(a, b)` consuming draw `n`, modelled on its support: an
integer of `[a, b]` whenever the unit draw lies in `[0, 1)` and `a ≤ b`. -/
def randintM (rnd : ℕ → ℚ) (a b : ℤ) (n : ℕ) : ℤ :=
  a + ⌊((b : ℚ) + 1 - (a : ℚ)) * rnd n⌋

/-- The `while` loop of `add_veins` (lines 57-63), with an explicit fuel
bound standing for the unbounded Python loop (the termination theorem shows
a fuel linear in the width always suffices): while
`x < width + width//4 and 0 <= y < height`, append `(int(x), int(y))`,
perturb the heading by `uniform(-0.15, 0.15)`, advance `x` by
`uniform(15, 35)` and `y` by `sin(angle) * uniform(10, 30)`.  Returns the
accumulated points, the next unused draw index, and whether the loop
condition itself caused the exit. -/
def walk (rnd : ℕ → ℚ) (sinQ : ℚ → ℚ) (width height : ℕ) :
    ℕ → ℚ → ℚ → ℚ → ℕ → List (ℤ × ℤ) → List (ℤ × ℤ) × ℕ × Bool
  | 0, _, _, _, n, acc => (acc.reverse, n, false)
  | fuel + 1, x, y, angle, n, acc =>
    if x < ((width + width / 4 : ℕ) : ℚ) ∧ 0 ≤ y ∧ y < (height : ℚ) then
      let angle2 := angle + uniformM rnd (-(3 / 20)) (3 / 20) n
      let x2 := x + uniformM rnd 15 35 (n + 1)
      let y2 := y + sinQ angle2 * uniformM rnd 10 30 (n + 2)
      walk rnd sinQ width height fuel x2 y2 angle2 (n + 3)
        ((pytrunc x, pytrunc y) :: acc)
    else (acc.reverse, n, true)

/-- One vein's path (lines 48-63): random start with
`x ∈ [-width//4, width + width//4]` (Python floor division on the negative
side), `y ∈ [0, height]`, initial heading `uniform(-0.5, 0.5)`, then the
random walk. -/
def veinPath (rnd : ℕ → ℚ) (sinQ : ℚ → ℚ) (width height : ℕ)
    (fuel n : ℕ) : List (ℤ × ℤ) × ℕ × Bool :=
  walk rnd sinQ width height fuel
    ((randintM rnd (Int.fdiv (-(width : ℤ)) 4) ((width : ℤ) + ((width / 4 : ℕ) : ℤ)) n : ℤ) : ℚ)
    ((randintM rnd 0 (height : ℤ) (n + 1) : ℤ) : ℚ)
    (uniformM rnd (-(1 / 2)) (1 / 2) (n + 2)) (n + 3) []

/-- A drawn vein stroke: the polyline and the single color, thickness and
opacity used for its one `draw.line` call. -/
structure Stroke where
  pts : List (ℤ × ℤ)
  color : ℕ × ℕ × ℕ
  thickness : ℤ
  opacity : ℤ
deriving DecidableEq

/-- One iteration of the `for _ in range(num_veins)` loop of `add_veins`:
build the path; if it has more than one point, pick one thickness from
`thickness_range` and one opacity from the fixed range `(30, 120)` and draw
the polyline, else draw nothing.  The drawn strokes are also recorded. -/
def veinStep (rnd : ℕ → ℚ) (sinQ : ℚ → ℚ) (draw : DrawFn) (width height : ℕ)
    (color : ℕ × ℕ × ℕ) (tr : ℤ × ℤ) (fuel : ℕ)
    (s : Canvas × ℕ × List Stroke) : Canvas × ℕ × List Stroke :=
  let p := veinPath rnd sinQ width height fuel s.2.1
  if 1 < p.1.length then
    let th := randintM rnd tr.1 tr.2 p.2.1
    let op := randintM rnd 30 120 (p.2.1 + 1)
    (draw s.1 p.1 color op th, p.2.1 + 2, s.2.2 ++ [⟨p.1, color, th, op⟩])
  else (s.1, p.2.1, s.2.2)

/-- The full `add_veins(img_array, color, num_veins, thickness_range)` run:
quantize the input to the 8-bit PIL canvas, then iterate the vein loop;
returns the final canvas, the next draw index, and the drawn strokes. -/
def add_veins_run (rnd : ℕ → ℚ) (sinQ : ℚ → ℚ) (draw : DrawFn) (img : ImgF)
    (height width : ℕ) (color : ℕ × ℕ × ℕ) (num_veins : ℕ) (tr : ℤ × ℤ)
    (fuel : ℕ) : Canvas × ℕ × List Stroke :=
  (List.range num_veins).foldl
    (fun s _ => veinStep rnd sinQ draw width height color tr fuel s)
    (quantizeImg img, 0, [])

/-- The buffer `add_veins` returns: `np.array(img)[:, :, :3]` (the canvas is
RGB already, so dropping the alpha plane is the identity). -/
def add_veins (rnd : ℕ → ℚ) (sinQ : ℚ → ℚ) (draw : DrawFn) (img : ImgF)
    (height width : ℕ) (color : ℕ × ℕ × ℕ) (num_veins : ℕ) (tr : ℤ × ℤ)
    (fuel : ℕ) : Canvas :=
  (add_veins_run rnd sinQ draw img height width color num_veins tr fuel).1

/-- The strokes a run of `add_veins` draws. -/
def add_veins_strokes (rnd : ℕ → ℚ) (sinQ : ℚ → ℚ) (draw : DrawFn) (img : ImgF)
    (height width : ℕ) (color : ℕ × ℕ × ℕ) (num_veins : ℕ) (tr : ℤ × ℤ)
    (fuel : ℕ) : List Stroke :=
  (add_veins_run rnd sinQ draw img height width color num_veins tr fuel).2.2

/-- A degenerate numpy stream: every draw is 1/2, so every octave grid is
constant (zero variance). -/
def npHalf : ℕ → ℕ → ℚ := fun _ _ => 1 / 2

/-- A concrete instantiation of the abstract `ZoomFn`, used only to build
evaluation scenarios: block-repeat upsampling.  Like scipy's cubic-spline
zoom it maps a constant grid to a constant grid, which is the only property
the degenerate-octave scenario needs. -/
def zoomRepeat : ZoomFn := fun g _ _ z _ _ i j => g (i / z) (j / z)

/-- A stream whose draw of index `k` alternates between 0 and 1: gives the
octave grids a nonzero spread, so the rescale is non-degenerate. -/
def npParity : ℕ → ℕ → ℚ := fun _ k => ((k % 2 : ℕ) : ℚ)

/-- A constant image buffer with every channel 1/2, a stream of zero draws,
a zero sine and a draw function that leaves the canvas alone: enough to
evaluate concrete vein runs. -/
def imgHalf : ImgF := fun _ _ _ => 1 / 2

def rndZero : ℕ → ℚ := fun _ => 0

def sinZero : ℚ → ℚ := fun _ => 0

def drawNoop : DrawFn := fun c _ _ _ _ => c

/-- A concrete draw stream that makes the first vein of a 100×20 run start
at (0, 10), walk exactly two in-range points, and then pick the minimum
thickness and opacity. -/
def rndVein : ℕ → ℚ := fun n =>
  ([25 / 151, 10 / 21, 1 / 2, 1 / 2, 0, 0, 1 / 2, 0, 0, 0, 0] : List ℚ).getD n 0

/-- Stand-in for `np.sin` on the concrete paths below: constantly -1 (a
value the real sine also attains). -/
def sinNegOne : ℚ → ℚ := fun _ => -1

/-- A concrete draw stream under which a vein path exits after a single
in-range point. -/
def rndOne : ℕ → ℚ := fun n =>
  ([25 / 151, 10 / 21, 1 / 2, 1 / 2, 0, 1 / 2] : List ℚ).getD n 0

lemma create_seamless_noise_apply (npRand : ℕ → ℕ → ℚ) (zoom : ZoomFn)
    (width height : ℕ) (scale : ℚ) (i j : ℕ) :
    create_seamless_noise npRand zoom width height scale i j =
      fdiv (rawNoise npRand zoom width height i j -
            qmin (gridVals (rawNoise npRand zoom width height) height width))
           (qmax (gridVals (rawNoise npRand zoom width height) height width) -
            qmin (gridVals (rawNoise npRand zoom width height) height width)) := rfl

lemma foldl_min_le_init (l : List ℚ) (a : ℚ) : l.foldl min a ≤ a := by
  induction l generalizing a with
  | nil => exact le_refl a
  | cons b t ih => exact le_trans (ih (min a b)) (min_le_left a b)

lemma foldl_min_le (l : List ℚ) (a x : ℚ) (hx : x ∈ l) : l.foldl min a ≤ x := by
  induction l generalizing a with
  | nil => cases hx
  | cons b t ih =>
    rcases List.mem_cons.1 hx with rfl | hx2
    · exact le_trans (foldl_min_le_init t (min a x)) (min_le_right a x)
    · exact ih (min a b) hx2

lemma foldl_min_choice (l : List ℚ) (a : ℚ) :
    l.foldl min a = a ∨ l.foldl min a ∈ l := by
  induction l generalizing a with
  | nil => exact Or.inl rfl
  | cons b t ih =>
    rcases ih (min a b) with h | h
    · rcases min_choice a b with h2 | h2
      · exact Or.inl (by rw [List.foldl_cons, h, h2])
      · exact Or.inr (by rw [List.foldl_cons, h, h2]; exact List.mem_cons_self b t)
    · exact Or.inr (List.mem_cons_of_mem b h)

lemma init_le_foldl_max (l : List ℚ) (a : ℚ) : a ≤ l.foldl max a := by
  induction l generalizing a with
  | nil => exact le_refl a
  | cons b t ih => exact le_trans (le_max_left a b) (ih (max a b))

lemma le_foldl_max (l : List ℚ) (a x : ℚ) (hx : x ∈ l) : x ≤ l.foldl max a := by
  induction l generalizing a with
  | nil => cases hx
  | cons b t ih =>
    rcases List.mem_cons.1 hx with rfl | hx2
    · exact le_trans (le_max_right a x) (init_le_foldl_max t (max a x))
    · exact ih (max a b) hx2

lemma foldl_max_choice (l : List ℚ) (a : ℚ) :
    l.foldl max a = a ∨ l.foldl max a ∈ l := by
  induction l generalizing a with
  | nil => exact Or.inl rfl
  | cons b t ih =>
    rcases ih (max a b) with h | h
    · rcases max_choice a b with h2 | h2
      · exact Or.inl (by rw [List.foldl_cons, h, h2])
      · exact Or.inr (by rw [List.foldl_cons, h, h2]; exact List.mem_cons_self b t)
    · exact Or.inr (List.mem_cons_of_mem b h)

lemma qmin_le {l : List ℚ} {x : ℚ} (hx : x ∈ l) : qmin l ≤ x := by
  cases l with
  | nil => cases hx
  | cons a t =>
    rcases List.mem_cons.1 hx with rfl | hx2
    · exact foldl_min_le_init t x
    · exact foldl_min_le t a x hx2

lemma le_qmax {l : List ℚ} {x : ℚ} (hx : x ∈ l) : x ≤ qmax l := by
  cases l with
  | nil => cases hx
  | cons a t =>
    rcases List.mem_cons.1 hx with rfl | hx2
    · exact init_le_foldl_max t x
    · exact le_foldl_max t a x hx2

lemma qmin_mem {l : List ℚ} (h : l ≠ []) : qmin l ∈ l := by
  cases l with
  | nil => exact absurd rfl h
  | cons a t =>
    rcases foldl_min_choice t a with h2 | h2
    · show t.foldl min a ∈ a :: t
      rw [h2]
      exact List.mem_cons_self a t
    · exact List.mem_cons_of_mem a h2

lemma qmax_mem {l : List ℚ} (h : l ≠ []) : qmax l ∈ l := by
  cases l with
  | nil => exact absurd rfl h
  | cons a t =>
    rcases foldl_max_choice t a with h2 | h2
    · show t.foldl max a ∈ a :: t
      rw [h2]
      exact List.mem_cons_self a t
    · exact List.mem_cons_of_mem a h2

lemma mem_gridVals (g : Grid) (height width i j : ℕ)
    (hi : i < height) (hj : j < width) : g i j ∈ gridVals g height width := by
  unfold gridVals
  rw [List.mem_flatten]
  exact ⟨(List.range width).map fun j => g i j,
    List.mem_map_of_mem _ (List.mem_range.2 hi),
    List.mem_map_of_mem _ (List.mem_range.2 hj)⟩

lemma gridVals_exists {g : Grid} {height width : ℕ} {x : ℚ}
    (hx : x ∈ gridVals g height width) :
    ∃ i j, i < height ∧ j < width ∧ g i j = x := by
  unfold gridVals at hx
  rw [List.mem_flatten] at hx
  obtain ⟨l, hl, hxl⟩ := hx
  obtain ⟨i, hi, rfl⟩ := List.mem_map.1 hl
  obtain ⟨j, hj, rfl⟩ := List.mem_map.1 hxl
  exact ⟨i, j, List.mem_range.1 hi, List.mem_range.1 hj, rfl⟩

lemma randintM_bounds (rnd : ℕ → ℚ) (hv : validOracle rnd) {a b : ℤ}
    (hab : a ≤ b) (n : ℕ) :
    a ≤ randintM rnd a b n ∧ randintM rnd a b n ≤ b := by
  obtain ⟨h0, h1⟩ := hv n
  have hba : (0 : ℚ) < (b : ℚ) + 1 - (a : ℚ) := by
    have : (a : ℚ) ≤ (b : ℚ) := by exact_mod_cast hab
    linarith
  constructor
  · have hf : (0 : ℤ) ≤ ⌊((b : ℚ) + 1 - (a : ℚ)) * rnd n⌋ :=
      Int.floor_nonneg.2 (mul_nonneg (le_of_lt hba) h0)
    unfold randintM
    linarith
  · have hlt : ((b : ℚ) + 1 - (a : ℚ)) * rnd n < (b : ℚ) + 1 - (a : ℚ) := by
      nlinarith [mul_pos hba (show (0 : ℚ) < 1 - rnd n by linarith)]
    have hf : ⌊((b : ℚ) + 1 - (a : ℚ)) * rnd n⌋ < b + 1 - a := by
      apply Int.floor_lt.2
      push_cast
      linarith
    unfold randintM
    omega

lemma uniformM_ge (rnd : ℕ → ℚ) (hv : validOracle rnd) (k : ℕ) :
    15 ≤ uniformM rnd 15 35 k := by
  obtain ⟨h0, -⟩ := hv k
  unfold uniformM
  nlinarith

lemma walk_zero (rnd : ℕ → ℚ) (sinQ : ℚ → ℚ) (width height : ℕ)
    (x y angle : ℚ) (n : ℕ) (acc : List (ℤ × ℤ)) :
    walk rnd sinQ width height 0 x y angle n acc = (acc.reverse, n, false) := rfl

lemma walk_succ (rnd : ℕ → ℚ) (sinQ : ℚ → ℚ) (width height fuel : ℕ)
    (x y angle : ℚ) (n : ℕ) (acc : List (ℤ × ℤ)) :
    walk rnd sinQ width height (fuel + 1) x y angle n acc =
      if x < ((width + width / 4 : ℕ) : ℚ) ∧ 0 ≤ y ∧ y < (height : ℚ) then
        walk rnd sinQ width height fuel
          (x + uniformM rnd 15 35 (n + 1))
          (y + sinQ (angle + uniformM rnd (-(3 / 20)) (3 / 20) n) *
            uniformM rnd 10 30 (n + 2))
          (angle + uniformM rnd (-(3 / 20)) (3 / 20) n) (n + 3)
          ((pytrunc x, pytrunc y) :: acc)
      else (acc.reverse, n, true) := rfl

/-- With valid unit draws, a fuel of one more than the number of guaranteed
15-unit x-advances needed to reach the right bound always lets the loop
exit on its own condition, and bounds the number of accumulated points. -/
lemma walk_term (rnd : ℕ → ℚ) (sinQ : ℚ → ℚ) (width height : ℕ)
    (hv : validOracle rnd) :
    ∀ (fuel : ℕ) (x y angle : ℚ) (n : ℕ) (acc : List (ℤ × ℤ)),
      ((width + width / 4 : ℕ) : ℚ) ≤ x + 15 * fuel →
      (walk rnd sinQ width height (fuel + 1) x y angle n acc).2.2 = true ∧
      (walk rnd sinQ width height (fuel + 1) x y angle n acc).1.length ≤
        acc.length + (fuel + 1) := by
  intro fuel
  induction fuel with
  | zero =>
    intro x y angle n acc hx
    have hng : ¬ (x < ((width + width / 4 : ℕ) : ℚ) ∧ 0 ≤ y ∧ y < (height : ℚ)) := by
      rintro ⟨h1, -, -⟩
      rw [Nat.cast_zero, mul_zero, add_zero] at hx
      exact absurd h1 (not_lt.2 hx)
    rw [walk_succ, if_neg hng]
    exact ⟨rfl, by simp⟩
  | succ fuel ih =>
    intro x y angle n acc hx
    by_cases hg : x < ((width + width / 4 : ℕ) : ℚ) ∧ 0 ≤ y ∧ y < (height : ℚ)
    · rw [walk_succ, if_pos hg]
      have hstep := uniformM_ge rnd hv (n + 1)
      have hx2 : ((width + width / 4 : ℕ) : ℚ) ≤
          (x + uniformM rnd 15 35 (n + 1)) + 15 * (fuel : ℚ) := by
        push_cast at hx ⊢
        linarith
      have hres := ih (x + uniformM rnd 15 35 (n + 1))
        (y + sinQ (angle + uniformM rnd (-(3 / 20)) (3 / 20) n) *
          uniformM rnd 10 30 (n + 2))
        (angle + uniformM rnd (-(3 / 20)) (3 / 20) n) (n + 3)
        ((pytrunc x, pytrunc y) :: acc) hx2
      refine ⟨hres.1, ?_⟩
      have h2 := hres.2
      simp only [List.length_cons] at h2
      omega
    · rw [walk_succ, if_neg hg]
      refine ⟨rfl, ?_⟩
      simp only [List.length_reverse]
      omega

/-- Invariant of the vein loop that needs no assumption on the draws: every
recorded stroke carries the caller's color and at least two points, and the
final canvas is the base canvas with exactly one polyline draw call folded
in per recorded stroke. -/
lemma add_veins_run_inv (rnd : ℕ → ℚ) (sinQ : ℚ → ℚ) (draw : DrawFn)
    (img : ImgF) (height width : ℕ) (color : ℕ × ℕ × ℕ) (tr : ℤ × ℤ)
    (fuel : ℕ) (num_veins : ℕ) :
    (∀ s ∈ (add_veins_run rnd sinQ draw img height width color num_veins tr fuel).2.2,
       s.color = color ∧ 2 ≤ s.pts.length) ∧
    (add_veins_run rnd sinQ draw img height width color num_veins tr fuel).1 =
      ((add_veins_run rnd sinQ draw img height width color num_veins tr fuel).2.2).foldl
        (fun c s => draw c s.pts s.color s.opacity s.thickness) (quantizeImg img) := by
  induction num_veins with
  | zero =>
    constructor
    · intro s hs
      simp [add_veins_run] at hs
    · rfl
  | succ nv ih =>
    have hstep : add_veins_run rnd sinQ draw img height width color (nv + 1) tr fuel =
        veinStep rnd sinQ draw width height color tr fuel
          (add_veins_run rnd sinQ draw img height width color nv tr fuel) := by
      unfold add_veins_run
      rw [List.range_succ, List.foldl_append, List.foldl_cons, List.foldl_nil]
    obtain ⟨ih1, ih2⟩ := ih
    rw [hstep]
    generalize hS : add_veins_run rnd sinQ draw img height width color nv tr fuel = S
      at ih1 ih2
    by_cases h : 1 < (veinPath rnd sinQ width height fuel S.2.1).1.length
    · simp only [veinStep, if_pos h]
      constructor
      · intro s hs
        simp only [List.mem_append, List.mem_singleton] at hs
        rcases hs with hs | rfl
        · exact ih1 s hs
        · refine ⟨rfl, ?_⟩
          show 2 ≤ (veinPath rnd sinQ width height fuel S.2.1).1.length
          omega
      · simp only [List.foldl_append, List.foldl_cons, List.foldl_nil]
        rw [← ih2]
    · simp only [veinStep, if_neg h]
      exact ⟨ih1, ih2⟩

/-- Invariant of the vein loop under valid draws: each stroke's opacity was
drawn from the fixed range [30, 120] and its thickness from the
caller-supplied `thickness_range`. -/
lemma add_veins_run_rand_bounds (rnd : ℕ → ℚ) (sinQ : ℚ → ℚ) (draw : DrawFn)
    (img : ImgF) (height width : ℕ) (color : ℕ × ℕ × ℕ) (tr : ℤ × ℤ)
    (fuel : ℕ) (hv : validOracle rnd) (htr : tr.1 ≤ tr.2) (num_veins : ℕ) :
    ∀ s ∈ (add_veins_run rnd sinQ draw img height width color num_veins tr fuel).2.2,
      30 ≤ s.opacity ∧ s.opacity ≤ 120 ∧
      tr.1 ≤ s.thickness ∧ s.thickness ≤ tr.2 := by
  induction num_veins with
  | zero =>
    intro s hs
    simp [add_veins_run] at hs
  | succ nv ih =>
    have hstep : add_veins_run rnd sinQ draw img height width color (nv + 1) tr fuel =
        veinStep rnd sinQ draw width height color tr fuel
          (add_veins_run rnd sinQ draw img height width color nv tr fuel) := by
      unfold add_veins_run
      rw [List.range_succ, List.foldl_append, List.foldl_cons, List.foldl_nil]
    rw [hstep]
    generalize hS : add_veins_run rnd sinQ draw img height width color nv tr fuel = S
      at ih
    by_cases h : 1 < (veinPath rnd sinQ width height fuel S.2.1).1.length
    · simp only [veinStep, if_pos h]
      intro s hs
      simp only [List.mem_append, List.mem_singleton] at hs
      rcases hs with hs | rfl
      · exact ih s hs
      · have hop := randintM_bounds rnd hv (show (30 : ℤ) ≤ 120 by norm_num)
          ((veinPath rnd sinQ width height fuel S.2.1).2.1 + 1)
        have hth := randintM_bounds rnd hv htr
          ((veinPath rnd sinQ width height fuel S.2.1).2.1)
        exact ⟨hop.1, hop.2, hth.1, hth.2⟩
    · simp only [veinStep, if_neg h]
      exact ih

lemma int_fdiv_neg100 : Int.fdiv (-(100 : ℤ)) 4 = -25 := by decide

lemma rndVein_valid : validOracle rndVein := by
  intro n
  by_cases h : n < 11
  · interval_cases n <;> norm_num [rndVein]
  · have he : rndVein n = 0 := by
      show ([25 / 151, 10 / 21, 1 / 2, 1 / 2, 0, 0, 1 / 2, 0, 0, 0, 0] : List ℚ).getD n 0 = 0
      apply List.getD_eq_default
      simp only [List.length_cons, List.length_nil]
      omega
    rw [he]
    norm_num

lemma rndVein_strokes :
    add_veins_strokes rndVein sinNegOne drawNoop imgHalf 20 100
      (140, 140, 145) 1 (2, 8) 3 =
      [⟨[(0, 10), (15, 0)], (140, 140, 145), 2, 30⟩] := by
  norm_num [add_veins_strokes, add_veins_run, veinStep, veinPath, walk,
    randintM, uniformM, pytrunc, rndVein, sinNegOne, List.range_succ,
    int_fdiv_neg100]

lemma rndZero_valid : validOracle rndZero :=
  fun _ => ⟨by norm_num [rndZero], by norm_num [rndZero]⟩

/-- C1: in the degenerate flat-octave case (every octave grid has zero
variance) the rescale `(noise - min) / (max - min)` divides zero by zero:
the script has no guard, and the resulting field is non-finite (NaN), not
the uniform 0.5 field the specification requires. -/
theorem claim_C1_flat_unguarded :
    create_seamless_noise npHalf zoomRepeat 4 4 100 0 0 = none ∧
    create_seamless_noise npHalf zoomRepeat 4 4 100 0 0 ≠ some (1 / 2) := by
  have h : create_seamless_noise npHalf zoomRepeat 4 4 100 0 0 = none := by
    norm_num [create_seamless_noise, create_seamless_noise_st, rawNoiseSt, octaveStep,
      npSeed, npDraw, npHalf, zoomRepeat, gridVals, qmin, qmax, fdiv,
      List.range_succ, min_def, max_def]
  exact ⟨h, by simp [h]⟩

/-- C2 fails as stated: painting zero veins does not return a buffer equal
to the input buffer.  On the constant-1/2 float buffer the returned array
holds `int(0.5 * 255) = 127`, not `0.5`: the function quantizes the buffer
to 8-bit even when it draws nothing. -/
theorem claim_C2_counterexample :
    ¬ (((add_veins rndZero sinZero drawNoop imgHalf 1 1 (0, 0, 0) 0 (2, 8) 0
          0 0 0 : ℕ) : ℚ) = imgHalf 0 0 0) := by
  have h : Int.toNat 127 = 127 := rfl
  norm_num [add_veins, add_veins_run, quantizeImg, toUint8, pytrunc, imgHalf, h]

/-- C2 amended: painting zero veins returns the 8-bit quantization of the
input buffer (each channel `v` becomes `uint8(v * 255)`), and draws no
stroke; the buffer is unchanged only up to that quantization. -/
theorem claim_C2_zero_veins (rnd : ℕ → ℚ) (sinQ : ℚ → ℚ) (draw : DrawFn)
    (img : ImgF) (height width : ℕ) (color : ℕ × ℕ × ℕ) (tr : ℤ × ℤ)
    (fuel : ℕ) :
    add_veins rnd sinQ draw img height width color 0 tr fuel = quantizeImg img ∧
    add_veins_strokes rnd sinQ draw img height width color 0 tr fuel = [] :=
  ⟨rfl, rfl⟩

/-- C3: the noise field returned by `create_seamless_noise` is the same for
any two `scale` arguments: the coordinate arrays computed from `scale`
(lines 15-16) are never used in the octave synthesis. -/
theorem claim_C3_scale_unused (npRand : ℕ → ℕ → ℚ) (zoom : ZoomFn)
    (width height : ℕ) (s1 s2 : ℚ) :
    create_seamless_noise npRand zoom width height s1 =
      create_seamless_noise npRand zoom width height s2 := rfl

/-- C4: the synthesizer is deterministic across runs: its output field does
not depend on the incoming global random-generator state (each octave
reseeds with `octave + 42`, a function of the octave index alone), so two
successive calls with identical `(width, height, scale)` — the second call
starting from whatever state the first one left — produce identical
fields. -/
theorem claim_C4_deterministic (npRand : ℕ → ℕ → ℚ) (zoom : ZoomFn)
    (width height : ℕ) (scale : ℚ) (st1 st2 : RState) :
    (create_seamless_noise_st npRand zoom width height scale st1).1 =
      (create_seamless_noise_st npRand zoom width height scale st2).1 ∧
    (create_seamless_noise_st npRand zoom width height scale
        (create_seamless_noise_st npRand zoom width height scale st1).2).1 =
      (create_seamless_noise_st npRand zoom width height scale st1).1 :=
  ⟨rfl, rfl⟩

/-- C5: outside the degenerate flat case (field maximum ≠ field minimum),
and for any positive scale, every value of the returned noise field is a
finite number in [0, 1], the value 0 is attained, and the value 1 is
attained: the summed octaves are rescaled so min maps to 0 and max to 1. -/
theorem claim_C5_normalized (npRand : ℕ → ℕ → ℚ) (zoom : ZoomFn)
    (width height : ℕ) (scale : ℚ) (hs : 0 < scale)
    (hw : 0 < width) (hh : 0 < height)
    (hne : qmax (gridVals (rawNoise npRand zoom width height) height width) ≠
           qmin (gridVals (rawNoise npRand zoom width height) height width)) :
    (∀ i j, i < height → j < width →
       ∃ v, create_seamless_noise npRand zoom width height scale i j = some v ∧
            0 ≤ v ∧ v ≤ 1) ∧
    (∃ i j, i < height ∧ j < width ∧
       create_seamless_noise npRand zoom width height scale i j = some 0) ∧
    (∃ i j, i < height ∧ j < width ∧
       create_seamless_noise npRand zoom width height scale i j = some 1) := by
  have hnonempty : gridVals (rawNoise npRand zoom width height) height width ≠ [] := by
    intro hemp
    have := mem_gridVals (rawNoise npRand zoom width height) height width 0 0 hh hw
    rw [hemp] at this
    cases this
  have hmM : qmin (gridVals (rawNoise npRand zoom width height) height width) ≤
      qmax (gridVals (rawNoise npRand zoom width height) height width) :=
    le_qmax (qmin_mem hnonempty)
  have hlt : qmin (gridVals (rawNoise npRand zoom width height) height width) <
      qmax (gridVals (rawNoise npRand zoom width height) height width) :=
    lt_of_le_of_ne hmM (Ne.symm hne)
  have hpos : (0 : ℚ) <
      qmax (gridVals (rawNoise npRand zoom width height) height width) -
      qmin (gridVals (rawNoise npRand zoom width height) height width) :=
    sub_pos.2 hlt
  have hMm : qmax (gridVals (rawNoise npRand zoom width height) height width) -
      qmin (gridVals (rawNoise npRand zoom width height) height width) ≠ 0 :=
    ne_of_gt hpos
  have hout : ∀ i j, create_seamless_noise npRand zoom width height scale i j =
      some ((rawNoise npRand zoom width height i j -
             qmin (gridVals (rawNoise npRand zoom width height) height width)) /
            (qmax (gridVals (rawNoise npRand zoom width height) height width) -
             qmin (gridVals (rawNoise npRand zoom width height) height width))) := by
    intro i j
    rw [create_seamless_noise_apply, fdiv, if_neg hMm]
  refine ⟨?_, ?_, ?_⟩
  · intro i j hi hj
    have hmem := mem_gridVals (rawNoise npRand zoom width height) height width i j hi hj
    refine ⟨_, hout i j, ?_, ?_⟩
    · exact div_nonneg (sub_nonneg.2 (qmin_le hmem)) (le_of_lt hpos)
    · exact (div_le_one hpos).2 (sub_le_sub_right (le_qmax hmem) _)
  · obtain ⟨i, j, hi, hj, hij⟩ := gridVals_exists (qmin_mem hnonempty)
    refine ⟨i, j, hi, hj, ?_⟩
    rw [hout i j, hij, sub_self, zero_div]
  · obtain ⟨i, j, hi, hj, hij⟩ := gridVals_exists (qmax_mem hnonempty)
    refine ⟨i, j, hi, hj, ?_⟩
    rw [hout i j, hij, div_self hMm]

/-- Witness for C5 at a concrete non-degenerate instance. -/
theorem claim_C5_witness :
    (∀ i j, i < 2 → j < 2 →
       ∃ v, create_seamless_noise npParity zoomRepeat 2 2 100 i j = some v ∧
            0 ≤ v ∧ v ≤ 1) ∧
    (∃ i j, i < 2 ∧ j < 2 ∧
       create_seamless_noise npParity zoomRepeat 2 2 100 i j = some 0) ∧
    (∃ i j, i < 2 ∧ j < 2 ∧
       create_seamless_noise npParity zoomRepeat 2 2 100 i j = some 1) :=
  claim_C5_normalized npParity zoomRepeat 2 2 100 (by norm_num) (by norm_num)
    (by norm_num)
    (by norm_num [rawNoise, rawNoiseSt, octaveStep, npSeed, npDraw, npParity,
      zoomRepeat, gridVals, qmin, qmax, List.range_succ, min_def, max_def])

/-- C6: the synthesizer's accumulated field is exactly the sum over the 6
octaves of the amplitude-weighted, wrap-mode cubic upsampling of the
per-octave random grid of shape `(height/2^o + 2, width/2^o + 2)` seeded
from the octave index, whatever generator state it starts from. -/
theorem claim_C6_octaves (npRand : ℕ → ℕ → ℚ) (zoom : ZoomFn)
    (width height : ℕ) (st0 : RState) (i j : ℕ) :
    (rawNoiseSt npRand zoom width height st0).1 i j =
      octaveSumSpec npRand zoom width height i j := by
  simp [rawNoiseSt, octaveStep, npSeed, npDraw, octaveSumSpec, List.range_succ]
  ring

/-- C7 amended: every drawn vein is rendered as one connected polyline draw
call in the caller's RGB color, with a single thickness drawn from the
caller-supplied `thickness_range` and a single opacity drawn from the fixed
range [30, 120] hard-coded in the painter (the opacity range is not
caller-supplied), both constant along the whole vein, alpha-blended onto
the existing canvas. -/
theorem claim_C7_single_style (rnd : ℕ → ℚ) (sinQ : ℚ → ℚ) (draw : DrawFn)
    (img : ImgF) (height width : ℕ) (color : ℕ × ℕ × ℕ) (num_veins : ℕ)
    (tr : ℤ × ℤ) (fuel : ℕ) (hv : validOracle rnd) (htr : tr.1 ≤ tr.2) :
    (∀ s ∈ add_veins_strokes rnd sinQ draw img height width color num_veins tr fuel,
       s.color = color ∧ 30 ≤ s.opacity ∧ s.opacity ≤ 120 ∧
       tr.1 ≤ s.thickness ∧ s.thickness ≤ tr.2 ∧ 2 ≤ s.pts.length) ∧
    add_veins rnd sinQ draw img height width color num_veins tr fuel =
      (add_veins_strokes rnd sinQ draw img height width color num_veins tr fuel).foldl
        (fun c s => draw c s.pts s.color s.opacity s.thickness) (quantizeImg img) := by
  obtain ⟨h1, h2⟩ := add_veins_run_inv rnd sinQ draw img height width color tr fuel
    num_veins
  have h3 := add_veins_run_rand_bounds rnd sinQ draw img height width color tr fuel
    hv htr num_veins
  exact ⟨fun s hs => ⟨(h1 s hs).1, (h3 s hs).1, (h3 s hs).2.1, (h3 s hs).2.2.1,
    (h3 s hs).2.2.2, (h1 s hs).2⟩, h2⟩

/-- C7 fails as stated: the opacity of a drawn vein is not chosen from any
caller-supplied opacity range — the painter takes no such argument and
always draws from the fixed range [30, 120].  Concretely, a run drawing one
stroke of opacity 30 contradicts the claim read with a supplied opacity
range of (0, 0). -/
theorem claim_C7_counterexample :
    ¬ (∀ orange : ℤ × ℤ,
        ∀ s ∈ add_veins_strokes rndVein sinNegOne drawNoop imgHalf 20 100
            (140, 140, 145) 1 (2, 8) 3,
          orange.1 ≤ s.opacity ∧ s.opacity ≤ orange.2) := by
  intro hcl
  have h := hcl (0, 0) ⟨[(0, 10), (15, 0)], (140, 140, 145), 2, 30⟩
    (by rw [rndVein_strokes]; exact List.mem_cons_self _ _)
  exact absurd h.2 (by norm_num)

/-- Witness for the amended C7 at the concrete one-stroke run. -/
theorem claim_C7_witness :
    (Stroke.mk [(0, 10), (15, 0)] (140, 140, 145) 2 30).color = (140, 140, 145) ∧
    30 ≤ (Stroke.mk [(0, 10), (15, 0)] (140, 140, 145) 2 30).opacity ∧
    (Stroke.mk [(0, 10), (15, 0)] (140, 140, 145) 2 30).opacity ≤ 120 ∧
    (2 : ℤ) ≤ (Stroke.mk [(0, 10), (15, 0)] (140, 140, 145) 2 30).thickness ∧
    (Stroke.mk [(0, 10), (15, 0)] (140, 140, 145) 2 30).thickness ≤ 8 ∧
    2 ≤ (Stroke.mk [(0, 10), (15, 0)] (140, 140, 145) 2 30).pts.length :=
  (claim_C7_single_style rndVein sinNegOne drawNoop imgHalf 20 100
      (140, 140, 145) 1 (2, 8) 3 rndVein_valid (by norm_num)).1
    (Stroke.mk [(0, 10), (15, 0)] (140, 140, 145) 2 30)
    (by rw [rndVein_strokes]; exact List.mem_cons_self _ _)

/-- C8 fails in its first half: a generated vein path can hold exactly one
point (the walk leaves the vertical range after its first step), so path
lengths are not restricted to 0 or ≥ 2.  The loop exits by its own
condition (flag true), not by fuel exhaustion. -/
theorem claim_C8_counterexample :
    (veinPath rndOne sinNegOne 100 20 3 0).2.2 = true ∧
    ¬ ((veinPath rndOne sinNegOne 100 20 3 0).1.length = 0 ∨
       2 ≤ (veinPath rndOne sinNegOne 100 20 3 0).1.length) := by
  have h : veinPath rndOne sinNegOne 100 20 3 0 = ([(0, 10)], 6, true) := by
    norm_num [veinPath, walk, randintM, uniformM, pytrunc, rndOne, sinNegOne,
      int_fdiv_neg100]
  rw [h]
  norm_num

/-- C8 amended, second half confirmed: a vein is drawn onto the canvas only
when its accumulated point sequence has at least 2 points; single-point
paths are never drawn. -/
theorem claim_C8_drawn_min2 (rnd : ℕ → ℚ) (sinQ : ℚ → ℚ) (draw : DrawFn)
    (img : ImgF) (height width : ℕ) (color : ℕ × ℕ × ℕ) (num_veins : ℕ)
    (tr : ℤ × ℤ) (fuel : ℕ) :
    ∀ s ∈ add_veins_strokes rnd sinQ draw img height width color num_veins tr fuel,
      2 ≤ s.pts.length :=
  fun s hs =>
    ((add_veins_run_inv rnd sinQ draw img height width color tr fuel num_veins).1
      s hs).2

/-- Witness for C8's drawn-stroke bound at the concrete one-stroke run. -/
theorem claim_C8_witness :
    2 ≤ (Stroke.mk [(0, 10), (15, 0)] (140, 140, 145) 2 30).pts.length :=
  claim_C8_drawn_min2 rndVein sinNegOne drawNoop imgHalf 20 100
    (140, 140, 145) 1 (2, 8) 3
    (Stroke.mk [(0, 10), (15, 0)] (140, 140, 145) 2 30)
    (by rw [rndVein_strokes]; exact List.mem_cons_self _ _)

/-- C10: under valid unit draws, each loop iteration advances `x` by at
least 15 (`uniform(15, 35)`), and a fuel of `width / 10 + 2` — about
`(width + width/2) / 15 + 1` iterations — always lets the per-vein walk
exit through its own loop condition (`x` reaching `width + width//4`, or
`y` leaving `[0, height)`), with at most `width / 10 + 3` accumulated
points. -/
theorem claim_C10_terminates (rnd : ℕ → ℚ) (sinQ : ℚ → ℚ)
    (width height : ℕ) (n : ℕ) (hv : validOracle rnd) :
    (∀ k, 15 ≤ uniformM rnd 15 35 k) ∧
    (veinPath rnd sinQ width height (width / 10 + 2) n).2.2 = true ∧
    (veinPath rnd sinQ width height (width / 10 + 2) n).1.length ≤
      width / 10 + 3 := by
  refine ⟨uniformM_ge rnd hv, ?_⟩
  have hle : Int.fdiv (-(width : ℤ)) 4 ≤ (width : ℤ) + ((width / 4 : ℕ) : ℤ) := by
    rw [Int.fdiv_eq_ediv _ (by norm_num)]
    omega
  have hsx := (randintM_bounds rnd hv hle n).1
  have c1 : (((width / 4 : ℕ)) : ℚ) ≤ (width : ℚ) / 4 := by
    have h2 : ((width / 4) * 4 : ℕ) ≤ width := Nat.div_mul_le_self width 4
    have h2q : (((width / 4 : ℕ)) : ℚ) * 4 ≤ (width : ℚ) := by exact_mod_cast h2
    linarith
  have c2 : -((width : ℚ) / 4) - 1 ≤ ((Int.fdiv (-(width : ℤ)) 4 : ℤ) : ℚ) := by
    have h : Int.fdiv (-(width : ℤ)) 4 = (-(width : ℤ)) / 4 :=
      Int.fdiv_eq_ediv _ (by norm_num)
    rw [h]
    have h2 : (-(width : ℤ)) / 4 * 4 ≥ -(width : ℤ) - 3 := by omega
    have h3 : ((((-(width : ℤ)) / 4 : ℤ) : ℚ)) * 4 ≥ -(width : ℚ) - 3 := by
      exact_mod_cast h2
    linarith
  have c3 : ((width : ℚ)) - 9 ≤ 10 * ((width / 10 : ℕ) : ℚ) := by
    have h1 : 10 * (width / 10) + width % 10 = width := Nat.div_add_mod width 10
    have h2 : width % 10 ≤ 9 := by omega
    have h1q : 10 * ((width / 10 : ℕ) : ℚ) + ((width % 10 : ℕ) : ℚ) = (width : ℚ) := by
      exact_mod_cast h1
    have h2q : ((width % 10 : ℕ) : ℚ) ≤ 9 := by exact_mod_cast h2
    linarith
  have c4 : ((Int.fdiv (-(width : ℤ)) 4 : ℤ) : ℚ) ≤
      ((randintM rnd (Int.fdiv (-(width : ℤ)) 4)
        ((width : ℤ) + ((width / 4 : ℕ) : ℤ)) n : ℤ) : ℚ) := by
    exact_mod_cast hsx
  have hbound : ((width + width / 4 : ℕ) : ℚ) ≤
      ((randintM rnd (Int.fdiv (-(width : ℤ)) 4)
        ((width : ℤ) + ((width / 4 : ℕ) : ℤ)) n : ℤ) : ℚ) +
        15 * ((width / 10 + 1 : ℕ) : ℚ) := by
    have hcast1 : ((width + width / 4 : ℕ) : ℚ) =
        (width : ℚ) + ((width / 4 : ℕ) : ℚ) := by push_cast; ring
    have hcast2 : ((width / 10 + 1 : ℕ) : ℚ) =
        ((width / 10 : ℕ) : ℚ) + 1 := by push_cast; ring
    rw [hcast1, hcast2]
    linarith
  have hw := walk_term rnd sinQ width height hv (width / 10 + 1)
    ((randintM rnd (Int.fdiv (-(width : ℤ)) 4)
      ((width : ℤ) + ((width / 4 : ℕ) : ℤ)) n : ℤ) : ℚ)
    ((randintM rnd 0 (height : ℤ) (n + 1) : ℤ) : ℚ)
    (uniformM rnd (-(1 / 2)) (1 / 2) (n + 2)) (n + 3) [] hbound
  have hfu : width / 10 + 2 = (width / 10 + 1) + 1 := rfl
  constructor
  · show (walk rnd sinQ width height (width / 10 + 2) _ _ _ (n + 3) []).2.2 = true
    rw [hfu]
    exact hw.1
  · show (walk rnd sinQ width height (width / 10 + 2) _ _ _ (n + 3) []).1.length ≤
      width / 10 + 3
    rw [hfu]
    have := hw.2
    simp only [List.length_nil] at this
    omega

/-- Witness for C10 at a concrete oracle and size. -/
theorem claim_C10_witness :
    (∀ k, 15 ≤ uniformM rndZero 15 35 k) ∧
    (veinPath rndZero sinZero 30 20 (30 / 10 + 2) 0).2.2 = true ∧
    (veinPath rndZero sinZero 30 20 (30 / 10 + 2) 0).1.length ≤ 30 / 10 + 3 :=
  claim_C10_terminates rndZero sinZero 30 20 0 rndZero_valid
